import Mathlib

/-!
Verification of the pyroms numerical tools (src/trunk/pyroms/roms_tools.py and
src/trunk/pyroms/Dataset.py) against their natural-language specification.

An N-dimensional numpy array is embedded as a shape (list of dimension sizes)
together with a total data function from multi-indices to values; only the
in-bounds part of the data function is observable, mirroring numpy's
C-order indexed storage.  Pure rational arithmetic stands in for float
arithmetic in the claims whose content is exact (shrink, isoslice,
arg_nearest); the vertical-coordinate functions use real numbers because the
source evaluates sinh/tanh.
-/

/-- Shallow embedding of a numpy ndarray: a shape and a total indexing
function.  An index list is read coordinate by coordinate (C order). -/
structure NDArray (α : Type) where
  shape : List ℕ
  data : List ℕ → α

/-- An index is in bounds for a shape: same length, each coordinate below the
corresponding dimension size. -/
def InB (shape idx : List ℕ) : Prop :=
  idx.length = shape.length ∧ ∀ i ∈ List.range shape.length, idx.getD i 0 < shape.getD i 0

instance (shape idx : List ℕ) : Decidable (InB shape idx) :=
  inferInstanceAs (Decidable (_ ∧ _))

/-- All in-bounds indices of a shape, enumerated in C (row-major) order. -/
def allIdx : List ℕ → List (List ℕ)
  | [] => [[]]
  | d :: ds => (List.range d).flatMap fun i => (allIdx ds).map (i :: ·)

/- ------------------------------------------------------------------ -/
/- List helper lemmas used throughout.                                 -/
/- ------------------------------------------------------------------ -/

theorem getD_set_self {α : Type} (l : List α) (i : ℕ) (v d : α) (h : i < l.length) :
    (l.set i v).getD i d = v := by
  induction l generalizing i with
  | nil => simp at h
  | cons x xs ih =>
    cases i with
    | zero => rfl
    | succ n => simpa using ih n (by simpa using h)

theorem getD_set_ne {α : Type} (l : List α) (i k : ℕ) (v d : α) (h : i ≠ k) :
    (l.set i v).getD k d = l.getD k d := by
  induction l generalizing i k with
  | nil => simp [List.set]
  | cons x xs ih =>
    cases i with
    | zero =>
      cases k with
      | zero => exact absurd rfl h
      | succ m => rfl
    | succ n =>
      cases k with
      | zero => rfl
      | succ m => simpa using ih n m (by omega)

theorem set_getD_self {α : Type} (l : List α) (i : ℕ) (d : α) :
    l.set i (l.getD i d) = l := by
  induction l generalizing i with
  | nil => rfl
  | cons x xs ih =>
    cases i with
    | zero => rfl
    | succ n => simpa using ih n

/-- Two lists are equal when they have the same length and agree on getD at
every position. -/
theorem list_ext_getD {α : Type} (d : α) :
    ∀ (l₁ l₂ : List α), l₁.length = l₂.length →
      (∀ i, l₁.getD i d = l₂.getD i d) → l₁ = l₂ := by
  intro l₁
  induction l₁ with
  | nil => intro l₂ h _; cases l₂ <;> simp_all
  | cons x xs ih =>
    intro l₂ h hg
    cases l₂ with
    | nil => simp at h
    | cons y ys =>
      have h0 := hg 0
      simp [List.getD] at h0
      have : xs = ys := ih ys (by simpa using h) (fun i => by simpa using hg (i + 1))
      simp [h0, this]

theorem getD_zipWith_min (l₁ l₂ : List ℕ) (i : ℕ) (h : l₁.length = l₂.length) :
    (List.zipWith min l₁ l₂).getD i 0 = min (l₁.getD i 0) (l₂.getD i 0) := by
  induction l₁ generalizing l₂ i with
  | nil => cases l₂ <;> simp_all
  | cons x xs ih =>
    cases l₂ with
    | nil => simp at h
    | cons y ys =>
      cases i with
      | zero => rfl
      | succ n => simpa using ih ys n (by simpa using h)

/- ------------------------------------------------------------------ -/
/- numpy primitives used by shrink (roms_tools.py lines 186-232).      -/
/- ------------------------------------------------------------------ -/

/-- numpy a[1:-1] (or a[1:-1,:]) along axis 0: drop one element from each end
of the leading axis. -/
def slice1 (a : NDArray ℚ) : NDArray ℚ :=
  ⟨(a.shape.headD 0 - 2) :: a.shape.tail,
   fun idx => a.data ((idx.headD 0 + 1) :: idx.tail)⟩

/-- numpy 0.5*(a[1:] + a[:-1]) (or with trailing ,:): average adjacent cells
along axis 0, shortening it by one. -/
def avg0 (a : NDArray ℚ) : NDArray ℚ :=
  ⟨(a.shape.headD 0 - 1) :: a.shape.tail,
   fun idx => (1/2 : ℚ) * (a.data ((idx.headD 0 + 1) :: idx.tail) + a.data (idx.headD 0 :: idx.tail))⟩

/-- Exchange of positions 0 and j in an index or shape list (numpy
swapaxes(0, j)).  Out-of-range j leaves the list unchanged; only in-bounds
indices are observable. -/
def swapIdx (j : ℕ) (l : List ℕ) : List ℕ :=
  if j < l.length then (l.set 0 (l.getD j 0)).set j (l.getD 0 0) else l

/-- numpy a.swapaxes(0, j). -/
def swapaxes0 {α : Type} (j : ℕ) (a : NDArray α) : NDArray α :=
  ⟨swapIdx j a.shape, fun idx => a.data (swapIdx j idx)⟩

theorem swapIdx_length (j : ℕ) (l : List ℕ) : (swapIdx j l).length = l.length := by
  unfold swapIdx; split <;> simp

theorem getD_swapIdx (j : ℕ) (l : List ℕ) (hj : j < l.length) (i : ℕ) :
    (swapIdx j l).getD i 0 =
      if i = 0 then l.getD j 0 else if i = j then l.getD 0 0 else l.getD i 0 := by
  have hl : 0 < l.length := Nat.lt_of_le_of_lt (Nat.zero_le _) hj
  unfold swapIdx
  rw [if_pos hj]
  by_cases hi0 : i = 0
  · subst hi0
    by_cases hj0 : j = 0
    · subst hj0
      rw [List.set_set, getD_set_self _ _ _ _ hl, if_pos rfl]
    · rw [getD_set_ne _ _ _ _ _ (by omega), getD_set_self _ _ _ _ hl, if_pos rfl]
  · by_cases hij : i = j
    · subst hij
      rw [getD_set_self _ _ _ _ (by simpa using hj), if_neg hi0, if_pos rfl]
    · rw [getD_set_ne _ _ _ _ _ (by omega), getD_set_ne _ _ _ _ _ (by omega),
        if_neg hi0, if_neg hij]

theorem swapIdx_involutive (j : ℕ) (l : List ℕ) : swapIdx j (swapIdx j l) = l := by
  by_cases hj : j < l.length
  · have hlen : (swapIdx j l).length = l.length := swapIdx_length j l
    apply list_ext_getD 0 _ _ (by rw [swapIdx_length, swapIdx_length])
    intro i
    by_cases hil : i < l.length
    · rw [getD_swapIdx j _ (by rw [hlen]; exact hj) i, getD_swapIdx j l hj,
        getD_swapIdx j l hj, getD_swapIdx j l hj]
      have hl : 0 < l.length := Nat.lt_of_le_of_lt (Nat.zero_le _) hj
      by_cases hi0 : i = 0
      · subst hi0
        by_cases hj0 : j = 0 <;> simp [hj0]
      · by_cases hij : i = j
        · subst hij; simp [hi0]
        · simp [hi0, hij]
    · have h1 : l.length ≤ i := Nat.le_of_not_lt hil
      rw [List.getD_eq_default _ _ (by rw [swapIdx_length, swapIdx_length]; exact h1),
        List.getD_eq_default _ _ h1]
  · have h2 : ¬ j < (swapIdx j l).length := by rwa [swapIdx_length]
    unfold swapIdx
    rw [if_neg hj, if_neg hj]

theorem swapaxes0_involutive {α : Type} (j : ℕ) (a : NDArray α) :
    swapaxes0 j (swapaxes0 j a) = a := by
  cases a with
  | mk shape data =>
    unfold swapaxes0
    simp only [swapIdx_involutive]

/- ------------------------------------------------------------------ -/
/- shrink (roms_tools.py lines 186-232).                               -/
/- ------------------------------------------------------------------ -/

/-- The 1-D while loop of shrink, translated verbatim from the source:

    while a.shape[0] > dim:
        if (dim - a.shape[0]) >= 2:     # trim off edges evenly
            a = a[1:-1]
        else:                           # or average adjacent cells
            a = 0.5*(a[1:] + a[:-1])

The comparison dim - a.shape[0] is a Python int subtraction, so it is modelled
on ℤ.  The loop is run with fuel equal to the initial leading size, which
bounds the number of iterations since each one shortens axis 0. -/
def shrink1Go (dim : ℕ) : ℕ → NDArray ℚ → NDArray ℚ
  | 0, a => a
  | fuel + 1, a =>
    if dim < a.shape.headD 0 then
      if 2 ≤ (dim : ℤ) - (a.shape.headD 0 : ℤ) then shrink1Go dim fuel (slice1 a)
      else shrink1Go dim fuel (avg0 a)
    else a

def shrink1Loop (a : NDArray ℚ) (dim : ℕ) : NDArray ℚ :=
  shrink1Go dim (a.shape.headD 0) a

/-- The per-axis while loop of the N-dimensional branch of shrink:

    while a.shape[0] > dim:
        if (a.shape[0] - dim) >= 2:     # trim off edges evenly
            a = a[1:-1,:]
        if (a.shape[0] - dim) == 1:     # or average adjacent cells
            a = 0.5*(a[1:,:] + a[:-1,:])

Both conditions are re-evaluated each iteration (the second one after the
possible trim), exactly as in the source; the two ifs of one iteration are
shrinkTrim followed by shrinkAvg. -/
def shrinkTrim (dim : ℕ) (a : NDArray ℚ) : NDArray ℚ :=
  if 2 ≤ a.shape.headD 0 - dim then slice1 a else a

def shrinkAvg (dim : ℕ) (a1 : NDArray ℚ) : NDArray ℚ :=
  if a1.shape.headD 0 - dim = 1 then avg0 a1 else a1

def shrinkNDGo (dim : ℕ) : ℕ → NDArray ℚ → NDArray ℚ
  | 0, a => a
  | fuel + 1, a =>
    if dim < a.shape.headD 0 then shrinkNDGo dim fuel (shrinkAvg dim (shrinkTrim dim a))
    else a

def shrinkNDLoop (a : NDArray ℚ) (dim : ℕ) : NDArray ℚ :=
  shrinkNDGo dim (a.shape.headD 0) a

/-- The axis loop `for dim_idx in range(-(len(a.shape)), 0)` of shrink: each
axis t is swapped to the front, shrunk, and swapped back.  The negative index
b[dim_idx] is b[len(b) - rank + t], passed here as off + t. -/
def shrinkAxesGo (b : List ℕ) (off : ℕ) : List ℕ → NDArray ℚ → NDArray ℚ
  | [], a => a
  | t :: ts, a =>
    shrinkAxesGo b off ts
      (swapaxes0 t (shrinkNDLoop (swapaxes0 t a) (b.getD (off + t) 0)))

def shrinkND (a : NDArray ℚ) (b : List ℕ) : NDArray ℚ :=
  shrinkAxesGo b (b.length - a.shape.length) (List.range a.shape.length) a

/-- shrink(a, b) with b a shape tuple: the 1-D special case targets b[-1],
otherwise every axis is processed from the last dimension of b backwards. -/
def shrinkS (a : NDArray ℚ) (b : List ℕ) : NDArray ℚ :=
  if a.shape.length = 1 then shrink1Loop a (b.getD (b.length - 1) 0)
  else shrinkND a b

/-- shrink(a, b) with b an ndarray: requires equal ranks, then
a = shrink(a, b.shape); b = shrink(b, a.shape); return (a, b).
Unequal ranks raise, modelled by none. -/
def shrink2 (a b : NDArray ℚ) : Option (NDArray ℚ × NDArray ℚ) :=
  if a.shape.length = b.shape.length then
    some (shrinkS a b.shape, shrinkS b (shrinkS a b.shape).shape)
  else none

/-- shrink(a, b) with b a plain int is shrink(a, (b,)). -/
def shrinkInt (a : NDArray ℚ) (n : ℕ) : NDArray ℚ := shrinkS a [n]

/-- A 1-D array from a list of rationals. -/
def arr1D (l : List ℚ) : NDArray ℚ :=
  ⟨[l.length], fun idx => l.getD (idx.headD 0) 0⟩

/- ------------------------------------------------------------------ -/
/- Shape and no-op lemmas for shrink.                                  -/
/- ------------------------------------------------------------------ -/

theorem headD_eq_getD {α : Type} (l : List α) (d : α) : l.headD d = l.getD 0 d := by
  cases l <;> rfl

theorem shrink1Go_noop (dim : ℕ) (a : NDArray ℚ) (h : a.shape.headD 0 ≤ dim) :
    ∀ fuel, shrink1Go dim fuel a = a := by
  intro fuel
  cases fuel with
  | zero => rfl
  | succ n => unfold shrink1Go; rw [if_neg (by omega)]

theorem shrink1Go_shape (dim : ℕ) :
    ∀ (fuel : ℕ) (a : NDArray ℚ) (s : ℕ) (t : List ℕ),
      a.shape = s :: t → s ≤ fuel → (shrink1Go dim fuel a).shape = min s dim :: t := by
  intro fuel
  induction fuel with
  | zero =>
    intro a s t hsh hs
    have hs0 : s = 0 := Nat.le_zero.mp hs
    subst hs0
    unfold shrink1Go
    simp [hsh]
  | succ n ih =>
    intro a s t hsh hs
    unfold shrink1Go
    by_cases hg : dim < a.shape.headD 0
    · rw [if_pos hg]
      have hhead : a.shape.headD 0 = s := by rw [hsh]; rfl
      rw [if_neg (by omega)]
      have havg : (avg0 a).shape = (s - 1) :: t := by
        unfold avg0; rw [hsh]; simp
      rw [ih (avg0 a) (s - 1) t havg (by omega)]
      have : min (s - 1) dim = min s dim := by rw [hhead] at hg; omega
      rw [this]
    · rw [if_neg hg]
      have hhead : a.shape.headD 0 = s := by rw [hsh]; rfl
      rw [hsh]
      have : min s dim = s := by rw [hhead] at hg; omega
      rw [this]

theorem shrink1Loop_shape (a : NDArray ℚ) (dim s : ℕ) (t : List ℕ) (hsh : a.shape = s :: t) :
    (shrink1Loop a dim).shape = min s dim :: t := by
  unfold shrink1Loop
  exact shrink1Go_shape dim _ a s t hsh (by rw [hsh]; simp)

theorem shrinkNDGo_noop (dim : ℕ) (a : NDArray ℚ) (h : a.shape.headD 0 ≤ dim) :
    ∀ fuel, shrinkNDGo dim fuel a = a := by
  intro fuel
  cases fuel with
  | zero => rfl
  | succ n => unfold shrinkNDGo; rw [if_neg (by omega)]

theorem shrinkNDGo_shape (dim : ℕ) :
    ∀ (fuel : ℕ) (a : NDArray ℚ) (s : ℕ) (t : List ℕ),
      a.shape = s :: t → s ≤ fuel → (shrinkNDGo dim fuel a).shape = min s dim :: t := by
  intro fuel
  induction fuel with
  | zero =>
    intro a s t hsh hs
    have hs0 : s = 0 := Nat.le_zero.mp hs
    subst hs0
    unfold shrinkNDGo
    simp [hsh]
  | succ n ih =>
    intro a s t hsh hs
    have hhead : a.shape.headD 0 = s := by rw [hsh]; rfl
    unfold shrinkNDGo
    by_cases hg : dim < a.shape.headD 0
    · rw [if_pos hg]
      rw [hhead] at hg
      by_cases h2 : 2 ≤ s - dim
      · have htrim : shrinkTrim dim a = slice1 a := by
          unfold shrinkTrim; rw [if_pos (by rw [hhead]; omega)]
        have hsl : (slice1 a).shape = (s - 2) :: t := by unfold slice1; rw [hsh]; simp
        have hslh : (slice1 a).shape.headD 0 = s - 2 := by rw [hsl]; rfl
        by_cases h1 : s - 2 - dim = 1
        · have havg : shrinkAvg dim (slice1 a) = avg0 (slice1 a) := by
            unfold shrinkAvg; rw [if_pos (by rw [hslh]; omega)]
          have hav : (avg0 (slice1 a)).shape = (s - 3) :: t := by
            unfold avg0; rw [hsl]; simp; omega
          rw [htrim, havg, ih _ (s - 3) t hav (by omega)]
          have : min (s - 3) dim = min s dim := by omega
          rw [this]
        · have havg : shrinkAvg dim (slice1 a) = slice1 a := by
            unfold shrinkAvg; rw [if_neg (by rw [hslh]; omega)]
          rw [htrim, havg, ih _ (s - 2) t hsl (by omega)]
          have : min (s - 2) dim = min s dim := by omega
          rw [this]
      · have htrim : shrinkTrim dim a = a := by
          unfold shrinkTrim; rw [if_neg (by rw [hhead]; omega)]
        have havg : shrinkAvg dim a = avg0 a := by
          unfold shrinkAvg; rw [if_pos (by rw [hhead]; omega)]
        have hav : (avg0 a).shape = (s - 1) :: t := by unfold avg0; rw [hsh]; simp
        rw [htrim, havg, ih _ (s - 1) t hav (by omega)]
        have : min (s - 1) dim = min s dim := by omega
        rw [this]
    · rw [if_neg hg]
      rw [hhead] at hg
      rw [hsh]
      have : min s dim = s := by omega
      rw [this]

theorem shrinkNDLoop_shape (a : NDArray ℚ) (dim s : ℕ) (t : List ℕ) (hsh : a.shape = s :: t) :
    (shrinkNDLoop a dim).shape = min s dim :: t := by
  unfold shrinkNDLoop
  exact shrinkNDGo_shape dim _ a s t hsh (by rw [hsh]; simp)

theorem shrinkNDLoop_noop (a : NDArray ℚ) (dim : ℕ) (h : a.shape.headD 0 ≤ dim) :
    shrinkNDLoop a dim = a :=
  shrinkNDGo_noop dim a h _

/-- Effect of one axis step (swap to front, shrink leading axis, swap back)
on the shape, described pointwise. -/
theorem axis_step_shape (a : NDArray ℚ) (k dim : ℕ) (hk : k < a.shape.length) :
    (swapaxes0 k (shrinkNDLoop (swapaxes0 k a) dim)).shape.length = a.shape.length ∧
    ∀ i, (swapaxes0 k (shrinkNDLoop (swapaxes0 k a) dim)).shape.getD i 0 =
      if i = k then min (a.shape.getD k 0) dim else a.shape.getD i 0 := by
  have hswsh : (swapaxes0 k a).shape = swapIdx k a.shape := rfl
  have hswlen : (swapaxes0 k a).shape.length = a.shape.length := by
    rw [hswsh, swapIdx_length]
  have hpos : 0 < a.shape.length := Nat.lt_of_le_of_lt (Nat.zero_le _) hk
  obtain ⟨c, cs, hcs⟩ : ∃ c cs, (swapaxes0 k a).shape = c :: cs := by
    cases hsw : (swapaxes0 k a).shape with
    | nil => rw [hsw] at hswlen; simp at hswlen; omega
    | cons c cs => exact ⟨c, cs, rfl⟩
  have hc : c = a.shape.getD k 0 := by
    have := getD_swapIdx k a.shape hk 0
    rw [← hswsh, hcs] at this
    simpa using this
  have hloop : (shrinkNDLoop (swapaxes0 k a) dim).shape = min c dim :: cs :=
    shrinkNDLoop_shape _ dim c cs hcs
  have hLlen : (shrinkNDLoop (swapaxes0 k a) dim).shape.length = a.shape.length := by
    rw [hloop]
    have : (c :: cs).length = a.shape.length := by rw [← hcs, hswlen]
    simpa using this
  have hkL : k < (shrinkNDLoop (swapaxes0 k a) dim).shape.length := by rw [hLlen]; exact hk
  constructor
  · show (swapIdx k (shrinkNDLoop (swapaxes0 k a) dim).shape).length = a.shape.length
    rw [swapIdx_length, hLlen]
  · intro i
    show (swapIdx k (shrinkNDLoop (swapaxes0 k a) dim).shape).getD i 0 = _
    rw [getD_swapIdx k _ hkL i]
    have hgL : ∀ j, (shrinkNDLoop (swapaxes0 k a) dim).shape.getD j 0 =
        if j = 0 then min c dim else (swapIdx k a.shape).getD j 0 := by
      intro j
      rw [hloop]
      cases j with
      | zero => simp
      | succ m =>
        rw [List.getD_cons_succ, if_neg (by omega), ← hswsh, hcs, List.getD_cons_succ]
    have hswgetD : ∀ i, (swapIdx k a.shape).getD i 0 =
        if i = 0 then a.shape.getD k 0 else if i = k then a.shape.getD 0 0
        else a.shape.getD i 0 := fun i => getD_swapIdx k a.shape hk i
    by_cases hi0 : i = 0
    · subst hi0
      rw [if_pos rfl, hgL k]
      by_cases hk0 : k = 0
      · subst hk0
        rw [if_pos rfl, if_pos rfl, hc]
      · rw [if_neg hk0, hswgetD k, if_neg hk0, if_pos rfl, if_neg (by omega)]
    · rw [if_neg hi0]
      by_cases hik : i = k
      · subst hik
        rw [if_pos rfl, hgL 0, if_pos rfl, if_pos rfl, hc]
      · rw [if_neg hik, hgL i, if_neg hi0, hswgetD i, if_neg hi0, if_neg hik, if_neg hik]

theorem shrinkAxesGo_spec (b : List ℕ) (off : ℕ) :
    ∀ (m k : ℕ) (a : NDArray ℚ), k + m ≤ a.shape.length →
      ((shrinkAxesGo b off (List.range' k m) a).shape.length = a.shape.length ∧
       ∀ i, (shrinkAxesGo b off (List.range' k m) a).shape.getD i 0 =
         if k ≤ i ∧ i < k + m then min (a.shape.getD i 0) (b.getD (off + i) 0)
         else a.shape.getD i 0) := by
  intro m
  induction m with
  | zero =>
    intro k a _
    refine ⟨rfl, fun i => ?_⟩
    rw [if_neg (by omega)]
    rfl
  | succ n ih =>
    intro k a hkm
    have hk : k < a.shape.length := by omega
    rw [List.range'_succ]
    obtain ⟨hstep_len, hstep⟩ := axis_step_shape a k (b.getD (off + k) 0) hk
    obtain ⟨ihlen, ihgetD⟩ := ih (k + 1)
      (swapaxes0 k (shrinkNDLoop (swapaxes0 k a) (b.getD (off + k) 0)))
      (by rw [hstep_len]; omega)
    have hgo : shrinkAxesGo b off (k :: List.range' (k + 1) n) a =
        shrinkAxesGo b off (List.range' (k + 1) n)
          (swapaxes0 k (shrinkNDLoop (swapaxes0 k a) (b.getD (off + k) 0))) := rfl
    rw [hgo]
    refine ⟨by rw [ihlen, hstep_len], fun i => ?_⟩
    rw [ihgetD i]
    by_cases hrange : k + 1 ≤ i ∧ i < k + 1 + n
    · rw [if_pos hrange, hstep i, if_neg (by omega), if_pos (by omega)]
    · rw [if_neg hrange, hstep i]
      by_cases hik : i = k
      · subst hik
        rw [if_pos rfl, if_pos (by omega)]
      · rw [if_neg hik, if_neg (by omega)]

theorem shrinkAxesGo_noop (b : List ℕ) (off : ℕ) :
    ∀ (m k : ℕ) (a : NDArray ℚ), k + m ≤ a.shape.length →
      (∀ i, k ≤ i → i < k + m → a.shape.getD i 0 ≤ b.getD (off + i) 0) →
      shrinkAxesGo b off (List.range' k m) a = a := by
  intro m
  induction m with
  | zero => intro k a _ _; rfl
  | succ n ih =>
    intro k a hkm hle
    have hk : k < a.shape.length := by omega
    rw [List.range'_succ]
    have hhead : (swapaxes0 k a).shape.headD 0 = a.shape.getD k 0 := by
      rw [headD_eq_getD]
      show (swapIdx k a.shape).getD 0 0 = _
      rw [getD_swapIdx k a.shape hk 0]
      simp
    have hnoop : shrinkNDLoop (swapaxes0 k a) (b.getD (off + k) 0) = swapaxes0 k a := by
      apply shrinkNDLoop_noop
      rw [hhead]
      exact hle k (Nat.le_refl k) (by omega)
    show shrinkAxesGo b off (List.range' (k + 1) n)
        (swapaxes0 k (shrinkNDLoop (swapaxes0 k a) (b.getD (off + k) 0))) = a
    rw [hnoop, swapaxes0_involutive]
    exact ih (k + 1) a (by omega) (fun i h1 h2 => hle i (by omega) (by omega))

theorem shrinkND_shape (a : NDArray ℚ) (b : List ℕ) (h : b.length = a.shape.length) :
    (shrinkND a b).shape = List.zipWith min a.shape b := by
  unfold shrinkND
  have hoff : b.length - a.shape.length = 0 := by omega
  rw [hoff, List.range_eq_range']
  obtain ⟨hlen, hgetD⟩ := shrinkAxesGo_spec b 0 a.shape.length 0 a (by omega)
  apply list_ext_getD 0
  · rw [hlen, List.length_zipWith, h]
    omega
  · intro i
    rw [hgetD i]
    by_cases hi : i < a.shape.length
    · rw [if_pos (by omega), getD_zipWith_min _ _ _ h.symm]
      simp
    · rw [if_neg (by omega), List.getD_eq_default _ _ (by omega),
        List.getD_eq_default _ _ (by rw [List.length_zipWith, h]; omega)]

theorem shrinkS_shape (a : NDArray ℚ) (b : List ℕ) (h : b.length = a.shape.length) :
    (shrinkS a b).shape = List.zipWith min a.shape b := by
  unfold shrinkS
  by_cases h1 : a.shape.length = 1
  · rw [if_pos h1]
    obtain ⟨s, hs⟩ : ∃ s, a.shape = [s] := by
      cases hsh : a.shape with
      | nil => rw [hsh] at h1; simp at h1
      | cons x xs =>
        cases xs with
        | nil => exact ⟨x, rfl⟩
        | cons y ys => rw [hsh] at h1; simp at h1
    obtain ⟨d, hd⟩ : ∃ d, b = [d] := by
      have : b.length = 1 := by rw [h, h1]
      cases hb : b with
      | nil => rw [hb] at this; simp at this
      | cons x xs =>
        cases xs with
        | nil => exact ⟨x, rfl⟩
        | cons y ys => rw [hb] at this; simp at this
    subst hd
    rw [shrink1Loop_shape a _ s [] hs, hs]
    rfl
  · rw [if_neg h1]
    exact shrinkND_shape a b h

theorem shrinkS_noop (a : NDArray ℚ) (b : List ℕ) (h : b.length = a.shape.length)
    (hle : ∀ i, a.shape.getD i 0 ≤ b.getD i 0) : shrinkS a b = a := by
  unfold shrinkS
  by_cases h1 : a.shape.length = 1
  · rw [if_pos h1]
    unfold shrink1Loop
    apply shrink1Go_noop
    rw [headD_eq_getD]
    have : b.length - 1 = 0 := by omega
    rw [this]
    exact hle 0
  · rw [if_neg h1]
    unfold shrinkND
    have hoff : b.length - a.shape.length = 0 := by omega
    rw [hoff, List.range_eq_range']
    exact shrinkAxesGo_noop b 0 a.shape.length 0 a (by omega)
      (fun i _ _ => by simpa using hle i)

theorem zip_min_absorb :
    ∀ (x y : List ℕ), List.zipWith min y (List.zipWith min x y) = List.zipWith min x y := by
  intro x
  induction x with
  | nil => intro y; cases y <;> rfl
  | cons a as ih =>
    intro y
    cases y with
    | nil => rfl
    | cons b bs =>
      show min b (min a b) :: _ = min a b :: _
      rw [ih bs]
      have : min b (min a b) = min a b := by omega
      rw [this]

/-- C1: shrink on a pair of equal-rank arrays returns arrays of identical
shape; shrinking an array to its own shape is the identity; a second
application of shrink with the same target (shape or pair) is a no-op. -/
theorem shrink_pair_and_idempotent (a b : NDArray ℚ) (c : List ℕ)
    (hab : a.shape.length = b.shape.length) (hc : c.length = a.shape.length) :
    (∃ p, shrink2 a b = some p ∧ p.1.shape = p.2.shape ∧ shrink2 p.1 p.2 = some p)
    ∧ shrinkS a a.shape = a
    ∧ shrinkS (shrinkS a c) c = shrinkS a c := by
  have hself : ∀ x : NDArray ℚ, shrinkS x x.shape = x := fun x =>
    shrinkS_noop x x.shape rfl (fun i => Nat.le_refl _)
  have ha1sh : (shrinkS a b.shape).shape = List.zipWith min a.shape b.shape :=
    shrinkS_shape a b.shape hab.symm
  have ha1len : (shrinkS a b.shape).shape.length = b.shape.length := by
    rw [ha1sh, List.length_zipWith]
    omega
  have hb1sh : (shrinkS b (shrinkS a b.shape).shape).shape = (shrinkS a b.shape).shape := by
    rw [shrinkS_shape b _ ha1len, ha1sh, zip_min_absorb]
  refine ⟨⟨(shrinkS a b.shape, shrinkS b (shrinkS a b.shape).shape), ?_, ?_, ?_⟩, hself a, ?_⟩
  · unfold shrink2
    rw [if_pos hab]
  · exact hb1sh.symm
  · unfold shrink2
    rw [if_pos (by rw [hb1sh])]
    have e1 : shrinkS (shrinkS a b.shape) (shrinkS b (shrinkS a b.shape).shape).shape =
        shrinkS a b.shape := by
      rw [hb1sh]; exact hself _
    have e2 : shrinkS (shrinkS b (shrinkS a b.shape).shape) (shrinkS a b.shape).shape =
        shrinkS b (shrinkS a b.shape).shape :=
      shrinkS_noop _ _ (by rw [hb1sh]) (fun i => by rw [hb1sh])
    rw [e1, e2]
  · have hA1 : (shrinkS a c).shape = List.zipWith min a.shape c := shrinkS_shape a c hc
    apply shrinkS_noop
    · rw [hA1, List.length_zipWith]; omega
    · intro i
      rw [hA1]
      by_cases hi : i < a.shape.length
      · rw [getD_zipWith_min _ _ _ hc.symm]
        exact Nat.min_le_right _ _
      · rw [List.getD_eq_default _ _ (by rw [List.length_zipWith]; omega)]
        exact Nat.zero_le _

def c1a : NDArray ℚ := ⟨[3, 2], fun _ => 1⟩

def c1b : NDArray ℚ := ⟨[2, 4], fun idx => (idx.headD 0 : ℚ)⟩

theorem shrink_pair_and_idempotent_witness :
    (∃ p, shrink2 c1a c1b = some p ∧ p.1.shape = p.2.shape ∧ shrink2 p.1 p.2 = some p)
    ∧ shrinkS c1a c1a.shape = c1a
    ∧ shrinkS (shrinkS c1a [1, 1]) [1, 1] = shrinkS c1a [1, 1] :=
  shrink_pair_and_idempotent c1a c1b [1, 1] (by decide) (by decide)

set_option maxHeartbeats 1000000 in
/-- C2: evaluation of the 1-D branch of shrink at a = [0,0,4,0,0], target
shape (3,).  The source compares dim - a.shape[0] (negative inside the loop),
so the trim branch is unreachable and the array is averaged twice, giving
[1, 2, 1]; the documented trim policy (excess 2 >= 2 trims one element per
end) would give [0, 4, 0]. -/
theorem shrink1d_always_averages :
    (shrinkS (arr1D [0, 0, 4, 0, 0]) [3]).shape = [3]
    ∧ (shrinkS (arr1D [0, 0, 4, 0, 0]) [3]).data [0] = 1
    ∧ (shrinkS (arr1D [0, 0, 4, 0, 0]) [3]).data [1] = 2
    ∧ (shrinkS (arr1D [0, 0, 4, 0, 0]) [3]).data [2] = 1
    ∧ ¬ (shrinkS (arr1D [0, 0, 4, 0, 0]) [3]).data [0] = 0 := by
  refine ⟨?_, ?_, ?_, ?_, ?_⟩ <;>
    norm_num [shrinkS, shrink1Loop, shrink1Go, arr1D, avg0, slice1]

/- ------------------------------------------------------------------ -/
/- isoslice (roms_tools.py lines 138-184).                             -/
/- ------------------------------------------------------------------ -/

/-- numpy squeeze on a shape: all singleton dimensions are removed. -/
def squeezeShape (s : List ℕ) : List ℕ := s.filter (· ≠ 1)

/-- C-order decomposition of a flat position into a multi-index for the given
dimensions (numpy reshape reading). -/
def unflatten : List ℕ → ℕ → List ℕ
  | [], _ => []
  | _ :: ds, j => (j / ds.prod) :: unflatten ds (j % ds.prod)

/-- C-order flat position of a multi-index for the given dimensions. -/
def flattenIdx : List ℕ → List ℕ → ℕ
  | [], _ => 0
  | _ :: ds, idx => idx.headD 0 * ds.prod + flattenIdx ds idx.tail

/-- sz = shape(var) after the axis swap: sz[0] is the crossing axis, the rest
is flattened into one column axis by reshape(sz[0], -1). -/
def isoSz (var : NDArray ℚ) (axis : ℕ) : List ℕ := swapIdx axis var.shape

def isoK (var : NDArray ℚ) (axis : ℕ) : ℕ := (isoSz var axis).headD 0

def isoM (var : NDArray ℚ) (axis : ℕ) : ℕ := (isoSz var axis).tail.prod

/-- var after swapaxes(0, axis) and reshape(sz[0], -1), read at row i,
column j. -/
def isoV (var : NDArray ℚ) (axis i j : ℕ) : ℚ :=
  (swapaxes0 axis var).data (i :: unflatten (isoSz var axis).tail j)

/-- prop after the same swap and reshape, offset by isoval
(prop = prop - isoval in the source). -/
def isoP (var prop : NDArray ℚ) (isoval : ℚ) (axis i j : ℕ) : ℚ :=
  (swapaxes0 axis prop).data (i :: unflatten (isoSz var axis).tail j) - isoval

/-- zc = where(prop[:-1,:]*prop[1:,:] < 0, 1., 0.): 1 at a sign-change
bracketing pair, 0 otherwise. -/
def isoZC (var prop : NDArray ℚ) (isoval : ℚ) (axis i j : ℕ) : ℚ :=
  if isoP var prop isoval axis i j * isoP var prop isoval axis (i + 1) j < 0 then 1 else 0

def isoVarl (var prop : NDArray ℚ) (isoval : ℚ) (axis i j : ℕ) : ℚ :=
  isoV var axis i j * isoZC var prop isoval axis i j

def isoVarh (var prop : NDArray ℚ) (isoval : ℚ) (axis i j : ℕ) : ℚ :=
  isoV var axis (i + 1) j * isoZC var prop isoval axis i j

def isoPropl (var prop : NDArray ℚ) (isoval : ℚ) (axis i j : ℕ) : ℚ :=
  isoP var prop isoval axis i j * isoZC var prop isoval axis i j

def isoProph (var prop : NDArray ℚ) (isoval : ℚ) (axis i j : ℕ) : ℚ :=
  isoP var prop isoval axis (i + 1) j * isoZC var prop isoval axis i j

/-- result = varl - propl*(varh-varl)/(proph-propl). -/
def isoRes0 (var prop : NDArray ℚ) (isoval : ℚ) (axis i j : ℕ) : ℚ :=
  isoVarl var prop isoval axis i j -
    isoPropl var prop isoval axis i j *
      (isoVarh var prop isoval axis i j - isoVarl var prop isoval axis i j) /
      (isoProph var prop isoval axis i j - isoPropl var prop isoval axis i j)

/-- result = where(zc == 1., result, 0.). -/
def isoRes1 (var prop : NDArray ℚ) (isoval : ℚ) (axis i j : ℕ) : ℚ :=
  if isoZC var prop isoval axis i j = 1 then isoRes0 var prop isoval axis i j else 0

/-- szc = zc.sum(axis=0). -/
def isoSzc (var prop : NDArray ℚ) (isoval : ℚ) (axis j : ℕ) : ℚ :=
  ∑ i ∈ Finset.range (isoK var axis - 1), isoZC var prop isoval axis i j

/-- szc = where(szc == 0., 1, szc). -/
def isoSzcD (var prop : NDArray ℚ) (isoval : ℚ) (axis j : ℕ) : ℚ :=
  if isoSzc var prop isoval axis j = 0 then 1 else isoSzc var prop isoval axis j

/-- result = result.sum(axis=0)/szc. -/
def isoCol (var prop : NDArray ℚ) (isoval : ℚ) (axis j : ℕ) : ℚ :=
  (∑ i ∈ Finset.range (isoK var axis - 1), isoRes1 var prop isoval axis i j) /
    isoSzcD var prop isoval axis j

/-- all(result.mask): with masking, the mask is zc.sum(axis=0) == 0
column-wise. -/
def isoAllMasked (var prop : NDArray ℚ) (isoval : ℚ) (axis : ℕ) : Bool :=
  (List.range (isoM var axis)).all fun j => decide (isoSzc var prop isoval axis j = 0)

/-- The entries of prop + isoval (the swapped, reshaped property values),
used in the out-of-range message min/max. -/
def isoPropVals (var prop : NDArray ℚ) (isoval : ℚ) (axis : ℕ) : List ℚ :=
  (List.range (isoK var axis)).flatMap fun i =>
    (List.range (isoM var axis)).map fun j => isoP var prop isoval axis i j + isoval

def minOfList : List ℚ → ℚ
  | [] => 0
  | x :: xs => xs.foldl min x

def maxOfList : List ℚ → ℚ
  | [] => 0
  | x :: xs => xs.foldl max x

def isoPmin (var prop : NDArray ℚ) (isoval : ℚ) (axis : ℕ) : ℚ :=
  minOfList (isoPropVals var prop isoval axis)

def isoPmax (var prop : NDArray ℚ) (isoval : ℚ) (axis : ℕ) : ℚ :=
  maxOfList (isoPropVals var prop isoval axis)

/-- Failure modes of isoslice: the two ValueError precondition checks of the
source, the numpy swapaxes axis-range failure, and the raised Warning for an
everywhere-masked result (which carries isoval and the property min/max). -/
inductive IsoErr
  | rankErr
  | shapeMismatch
  | axisErr
  | outOfRange (isoval pmin pmax : ℚ)
deriving DecidableEq

/-- isoslice(var, prop, isoval, axis, masking).  Returns the projected values
together with the column mask (all false when masking is off); the raised
exceptions are the error cases.  The raised Warning aborts the call in the
source, so no result is returned in that case. -/
def isoslice (var prop : NDArray ℚ) (isoval : ℚ) (axis : ℕ) (masking : Bool) :
    Except IsoErr (NDArray ℚ × NDArray Bool) :=
  if (squeezeShape var.shape).length ≤ 2 then .error .rankErr
  else if ¬ prop.shape = var.shape then .error .shapeMismatch
  else if ¬ axis < var.shape.length then .error .axisErr
  else if masking && isoAllMasked var prop isoval axis then
    .error (.outOfRange isoval (isoPmin var prop isoval axis) (isoPmax var prop isoval axis))
  else
    .ok
      (⟨(isoSz var axis).tail,
        fun idx => isoCol var prop isoval axis (flattenIdx (isoSz var axis).tail idx)⟩,
       ⟨(isoSz var axis).tail,
        fun idx =>
          masking && decide (isoSzc var prop isoval axis (flattenIdx (isoSz var axis).tail idx) = 0)⟩)

/- Specification-side description of the isoslice computation, written as in
the spec text: the set of detected crossings of a column, the plain linear
interpolation formula at a crossing, and their mean. -/

/-- The bracketing intervals of column j where the offset property changes
sign (strictly negative product). -/
def crossSet (var prop : NDArray ℚ) (isoval : ℚ) (axis j : ℕ) : Finset ℕ :=
  (Finset.range (isoK var axis - 1)).filter fun i =>
    isoP var prop isoval axis i j * isoP var prop isoval axis (i + 1) j < 0

/-- varLow - propLow*(varHigh - varLow)/(propHigh - propLow). -/
def interpVal (var prop : NDArray ℚ) (isoval : ℚ) (axis i j : ℕ) : ℚ :=
  isoV var axis i j -
    isoP var prop isoval axis i j * (isoV var axis (i + 1) j - isoV var axis i j) /
      (isoP var prop isoval axis (i + 1) j - isoP var prop isoval axis i j)

/-- Mean of the interpolated values over the detected crossings of a column,
with divisor 1 when there is no crossing. -/
def colMeanSpec (var prop : NDArray ℚ) (isoval : ℚ) (axis j : ℕ) : ℚ :=
  (∑ i ∈ crossSet var prop isoval axis j, interpVal var prop isoval axis i j) /
    (if (crossSet var prop isoval axis j).card = 0 then 1
     else ((crossSet var prop isoval axis j).card : ℚ))

/- ------------------------------------------------------------------ -/
/- isoslice lemmas and claims C4-C7.                                   -/
/- ------------------------------------------------------------------ -/

theorem isoRes1_eq_interp (var prop : NDArray ℚ) (isoval : ℚ) (axis i j : ℕ) :
    isoRes1 var prop isoval axis i j =
      if isoP var prop isoval axis i j * isoP var prop isoval axis (i + 1) j < 0
      then interpVal var prop isoval axis i j else 0 := by
  by_cases hc : isoP var prop isoval axis i j * isoP var prop isoval axis (i + 1) j < 0
  · rw [if_pos hc]
    have hzc : isoZC var prop isoval axis i j = 1 := by unfold isoZC; rw [if_pos hc]
    unfold isoRes1
    rw [if_pos hzc]
    unfold isoRes0 isoVarl isoVarh isoPropl isoProph interpVal
    rw [hzc]
    ring
  · rw [if_neg hc]
    have hzc : isoZC var prop isoval axis i j = 0 := by unfold isoZC; rw [if_neg hc]
    unfold isoRes1
    rw [hzc]
    norm_num

theorem isoSzc_eq_card (var prop : NDArray ℚ) (isoval : ℚ) (axis j : ℕ) :
    isoSzc var prop isoval axis j = ((crossSet var prop isoval axis j).card : ℚ) := by
  unfold isoSzc crossSet isoZC
  rw [Finset.sum_boole]

theorem isoCol_eq_colMeanSpec (var prop : NDArray ℚ) (isoval : ℚ) (axis j : ℕ) :
    isoCol var prop isoval axis j = colMeanSpec var prop isoval axis j := by
  unfold isoCol colMeanSpec
  have hsum : (∑ i ∈ Finset.range (isoK var axis - 1), isoRes1 var prop isoval axis i j)
      = ∑ i ∈ crossSet var prop isoval axis j, interpVal var prop isoval axis i j := by
    unfold crossSet
    rw [Finset.sum_filter]
    exact Finset.sum_congr rfl fun i _ => isoRes1_eq_interp var prop isoval axis i j
  rw [hsum]
  unfold isoSzcD
  rw [isoSzc_eq_card]
  congr 1
  by_cases h0 : (crossSet var prop isoval axis j).card = 0
  · rw [if_pos (by exact_mod_cast h0), if_pos h0]
  · rw [if_neg (by exact_mod_cast h0), if_neg h0]

/-- C4: whenever isoslice returns a result, each output column is the mean of
the linearly interpolated values varLow - propLow*(varHigh-varLow)/
(propHigh-propLow) over the detected crossings of that column (the offset
property changes sign), the sum being divided by the crossing count. -/
theorem isoslice_interp_mean (var prop : NDArray ℚ) (isoval : ℚ) (axis : ℕ) (masking : Bool)
    (h1 : 2 < (squeezeShape var.shape).length)
    (h2 : prop.shape = var.shape)
    (h3 : axis < var.shape.length)
    (h4 : masking = false ∨ isoAllMasked var prop isoval axis = false) :
    ∃ r mask, isoslice var prop isoval axis masking = .ok (r, mask) ∧
      r.shape = (isoSz var axis).tail ∧
      ∀ idx, r.data idx =
        colMeanSpec var prop isoval axis (flattenIdx (isoSz var axis).tail idx) := by
  unfold isoslice
  rw [if_neg (by omega), if_neg (by simp [h2]), if_neg (by simp [h3]),
    if_neg (by rcases h4 with h | h <;> simp [h])]
  exact ⟨_, _, rfl, rfl, fun idx => isoCol_eq_colMeanSpec var prop isoval axis _⟩

def c4prop : NDArray ℚ := ⟨[4, 2, 2], fun idx => (idx.headD 0 : ℚ) - 1⟩

theorem isoslice_interp_mean_witness :
    ∃ r mask, isoslice c4prop c4prop (1/2) 0 false = .ok (r, mask) ∧
      r.data [0, 0] = 1/2 := by
  obtain ⟨r, mask, hok, _, hdata⟩ :=
    isoslice_interp_mean c4prop c4prop (1/2) 0 false
      (by norm_num [squeezeShape, c4prop])
      rfl
      (by norm_num [c4prop])
      (Or.inl rfl)
  refine ⟨r, mask, hok, ?_⟩
  rw [hdata [0, 0]]
  have hcross : crossSet c4prop c4prop (1/2) 0 (flattenIdx (isoSz c4prop 0).tail [0, 0]) = {1} := by
    unfold crossSet isoK isoSz c4prop
    norm_num [swapIdx, flattenIdx]
    refine Finset.ext fun i => ?_
    simp only [Finset.mem_filter, Finset.mem_range, Finset.mem_singleton]
    constructor
    · rintro ⟨hi, hneg⟩
      interval_cases i
      · exfalso
        revert hneg
        norm_num [isoP, swapaxes0, swapIdx, unflatten]
      · rfl
      · exfalso
        revert hneg
        norm_num [isoP, swapaxes0, swapIdx, unflatten]
    · rintro rfl
      refine ⟨by norm_num, ?_⟩
      norm_num [isoP, swapaxes0, swapIdx, unflatten, c4prop]
  rw [colMeanSpec, hcross]
  norm_num [interpVal, isoP, isoV, swapaxes0, swapIdx, unflatten, c4prop, isoSz]

/-- C5: a crossing is flagged exactly when the product of adjacent offset
property values is strictly negative, so a pair touching the isovalue exactly
is not counted; at every flagged crossing the interpolation denominator
proph - propl is nonzero; and the column divisor is 1 when there is no
crossing, hence never zero. -/
theorem isoslice_crossing_safety (var prop : NDArray ℚ) (isoval : ℚ) (axis i j : ℕ) :
    (isoZC var prop isoval axis i j = 1 ↔
      isoP var prop isoval axis i j * isoP var prop isoval axis (i + 1) j < 0)
    ∧ ((isoP var prop isoval axis i j = 0 ∨ isoP var prop isoval axis (i + 1) j = 0) →
        isoZC var prop isoval axis i j = 0)
    ∧ (isoZC var prop isoval axis i j = 1 →
        isoProph var prop isoval axis i j - isoPropl var prop isoval axis i j ≠ 0)
    ∧ (isoSzc var prop isoval axis j = 0 → isoSzcD var prop isoval axis j = 1)
    ∧ isoSzcD var prop isoval axis j ≠ 0 := by
  have hiff : isoZC var prop isoval axis i j = 1 ↔
      isoP var prop isoval axis i j * isoP var prop isoval axis (i + 1) j < 0 := by
    unfold isoZC
    by_cases hc : isoP var prop isoval axis i j * isoP var prop isoval axis (i + 1) j < 0
    · rw [if_pos hc]; exact ⟨fun _ => hc, fun _ => rfl⟩
    · rw [if_neg hc]; exact ⟨fun h => absurd h (by norm_num), fun h => absurd h hc⟩
  refine ⟨hiff, ?_, ?_, ?_, ?_⟩
  · intro hz
    unfold isoZC
    rw [if_neg]
    rcases hz with h | h <;> rw [h] <;> simp
  · intro h1
    have hc := hiff.mp h1
    unfold isoProph isoPropl
    rw [h1, mul_one, mul_one]
    intro hdiff
    have heq : isoP var prop isoval axis (i + 1) j = isoP var prop isoval axis i j := by
      linarith
    rw [heq] at hc
    exact absurd hc (by nlinarith [mul_self_nonneg (isoP var prop isoval axis i j)])
  · intro h0
    unfold isoSzcD
    rw [if_pos h0]
  · unfold isoSzcD
    by_cases h0 : isoSzc var prop isoval axis j = 0
    · rw [if_pos h0]; norm_num
    · rw [if_neg h0]; exact h0

def c5prop : NDArray ℚ := ⟨[3, 2, 2], fun idx => (idx.headD 0 : ℚ)⟩

theorem isoslice_crossing_safety_witness :
    (isoP c5prop c5prop 0 0 0 0 = 0 ∨ isoP c5prop c5prop 0 0 1 0 = 0)
    ∧ isoZC c5prop c5prop 0 0 0 0 = 0
    ∧ isoSzcD c5prop c5prop 0 0 0 ≠ 0 := by
  have h0 : isoP c5prop c5prop 0 0 0 0 = 0 := by
    norm_num [isoP, c5prop, swapaxes0, swapIdx, isoSz, unflatten]
  exact ⟨Or.inl h0,
    (isoslice_crossing_safety c5prop c5prop 0 0 0 0).2.1 (Or.inl h0),
    (isoslice_crossing_safety c5prop c5prop 0 0 0 0).2.2.2.2⟩

/-- C6: isoslice fails with one of the two shape errors exactly when one of
its preconditions is violated: the variable squeezes to rank at most 2, or
the shapes of variable and property differ.  When both preconditions hold the
call never produces a shape error (it may still signal the out-of-range
warning, which is not a shape error, or the axis-range failure of swapaxes,
which the spec does not classify as one of the two preconditions). -/
theorem isoslice_shape_error_iff (var prop : NDArray ℚ) (isoval : ℚ) (axis : ℕ) (masking : Bool) :
    (∃ e, isoslice var prop isoval axis masking = .error e ∧
      (e = IsoErr.rankErr ∨ e = IsoErr.shapeMismatch)) ↔
      ((squeezeShape var.shape).length ≤ 2 ∨ ¬ prop.shape = var.shape) := by
  unfold isoslice
  by_cases h1 : (squeezeShape var.shape).length ≤ 2
  · rw [if_pos h1]
    exact ⟨fun _ => Or.inl h1, fun _ => ⟨IsoErr.rankErr, rfl, Or.inl rfl⟩⟩
  · rw [if_neg h1]
    by_cases h2 : ¬ prop.shape = var.shape
    · rw [if_pos h2]
      exact ⟨fun _ => Or.inr h2, fun _ => ⟨IsoErr.shapeMismatch, rfl, Or.inr rfl⟩⟩
    · rw [if_neg h2]
      constructor
      · rintro ⟨e, he, hor⟩
        by_cases h3 : ¬ axis < var.shape.length
        · rw [if_pos h3] at he
          have : e = IsoErr.axisErr := by
            simp only [Except.error.injEq] at he
            exact he.symm
          subst this
          rcases hor with h | h <;> simp at h
        · rw [if_neg h3] at he
          by_cases h4 : (masking && isoAllMasked var prop isoval axis) = true
          · rw [if_pos h4] at he
            have : e = IsoErr.outOfRange isoval (isoPmin var prop isoval axis)
                (isoPmax var prop isoval axis) := by
              simp only [Except.error.injEq] at he
              exact he.symm
            subst this
            rcases hor with h | h <;> simp at h
          · rw [if_neg h4] at he
            simp at he
      · intro hcon
        rcases hcon with h | h
        · exact absurd h h1
        · exact absurd h h2

/- ------------------------------------------------------------------ -/
/- C7: the all-masked Warning.                                         -/
/- ------------------------------------------------------------------ -/

/-- A property field with the same value everywhere. -/
def constArr (s : List ℕ) (c : ℚ) : NDArray ℚ := ⟨s, fun _ => c⟩

theorem isoZC_const (var : NDArray ℚ) (s : List ℕ) (c isoval : ℚ) (axis i j : ℕ) :
    isoZC var (constArr s c) isoval axis i j = 0 := by
  unfold isoZC isoP constArr swapaxes0
  rw [if_neg]
  exact not_lt.mpr (mul_self_nonneg _)

theorem isoSzc_const (var : NDArray ℚ) (s : List ℕ) (c isoval : ℚ) (axis j : ℕ) :
    isoSzc var (constArr s c) isoval axis j = 0 := by
  unfold isoSzc
  simp [isoZC_const]

theorem isoAllMasked_const (var : NDArray ℚ) (s : List ℕ) (c isoval : ℚ) (axis : ℕ) :
    isoAllMasked var (constArr s c) isoval axis = true := by
  simp [isoAllMasked, List.all_eq_true, isoSzc_const]

theorem foldl_min_const (c : ℚ) :
    ∀ l : List ℚ, (∀ x ∈ l, x = c) → l.foldl min c = c := by
  intro l
  induction l with
  | nil => intro _; rfl
  | cons x xs ih =>
    intro h
    have hx : x = c := h x (by simp)
    show (xs.foldl min (min c x)) = c
    rw [hx, min_self]
    exact ih fun y hy => h y (by simp [hy])

theorem foldl_max_const (c : ℚ) :
    ∀ l : List ℚ, (∀ x ∈ l, x = c) → l.foldl max c = c := by
  intro l
  induction l with
  | nil => intro _; rfl
  | cons x xs ih =>
    intro h
    have hx : x = c := h x (by simp)
    show (xs.foldl max (max c x)) = c
    rw [hx, max_self]
    exact ih fun y hy => h y (by simp [hy])

theorem minOfList_const (c : ℚ) (l : List ℚ) (h : ∀ x ∈ l, x = c) (hne : l ≠ []) :
    minOfList l = c := by
  cases l with
  | nil => exact absurd rfl hne
  | cons x xs =>
    have hx : x = c := h x (by simp)
    show xs.foldl min x = c
    rw [hx]
    exact foldl_min_const c xs fun y hy => h y (by simp [hy])

theorem maxOfList_const (c : ℚ) (l : List ℚ) (h : ∀ x ∈ l, x = c) (hne : l ≠ []) :
    maxOfList l = c := by
  cases l with
  | nil => exact absurd rfl hne
  | cons x xs =>
    have hx : x = c := h x (by simp)
    show xs.foldl max x = c
    rw [hx]
    exact foldl_max_const c xs fun y hy => h y (by simp [hy])

theorem isoPropVals_const (var : NDArray ℚ) (s : List ℕ) (c isoval : ℚ) (axis : ℕ) :
    ∀ x ∈ isoPropVals var (constArr s c) isoval axis, x = c := by
  intro x hx
  unfold isoPropVals at hx
  simp only [List.mem_flatMap, List.mem_map, List.mem_range] at hx
  obtain ⟨i, _, j, _, hval⟩ := hx
  rw [← hval]
  unfold isoP constArr swapaxes0
  ring

theorem isoPmin_const (var : NDArray ℚ) (s : List ℕ) (c isoval : ℚ) (axis : ℕ)
    (hK : 0 < isoK var axis) (hM : 0 < isoM var axis) :
    isoPmin var (constArr s c) isoval axis = c := by
  unfold isoPmin
  apply minOfList_const c _ (isoPropVals_const var s c isoval axis)
  unfold isoPropVals
  simp only [ne_eq, List.flatMap_eq_nil_iff, List.map_eq_nil_iff, List.mem_range, not_forall]
  refine ⟨0, hK, fun hmapnil => ?_⟩
  have hlen := congrArg List.length hmapnil
  simp at hlen
  omega

theorem isoPmax_const (var : NDArray ℚ) (s : List ℕ) (c isoval : ℚ) (axis : ℕ)
    (hK : 0 < isoK var axis) (hM : 0 < isoM var axis) :
    isoPmax var (constArr s c) isoval axis = c := by
  unfold isoPmax
  apply maxOfList_const c _ (isoPropVals_const var s c isoval axis)
  unfold isoPropVals
  simp only [ne_eq, List.flatMap_eq_nil_iff, List.map_eq_nil_iff, List.mem_range, not_forall]
  refine ⟨0, hK, fun hmapnil => ?_⟩
  have hlen := congrArg List.length hmapnil
  simp at hlen
  omega

def errOf {α : Type} (x : Except IsoErr α) : Option IsoErr :=
  match x with
  | .error e => some e
  | .ok _ => none

def cv7 : NDArray ℚ := ⟨[3, 2, 2], fun idx => (idx.headD 0 : ℚ)⟩

/-- C7 counterexample: with masking on and a property field that never
crosses the isovalue (constant 5, isoval 0), isoslice raises (the Warning is
a raise statement, aborting the call): the result is the error carrying
isoval and the property min/max, and no array is returned, contradicting the
claim that a fully masked result is still produced. -/
theorem isoslice_all_masked_fatal_counterexample :
    errOf (isoslice cv7 (constArr [3, 2, 2] 5) 0 0 true) =
      some (IsoErr.outOfRange 0 5 5) := by
  unfold isoslice
  rw [if_neg (by norm_num [squeezeShape, cv7]),
    if_neg (by norm_num [constArr, cv7]),
    if_neg (by norm_num [cv7]),
    if_pos (by rw [isoAllMasked_const]; rfl)]
  rw [isoPmin_const cv7 _ 5 0 0 (by norm_num [isoK, isoSz, cv7, swapIdx])
      (by norm_num [isoM, isoSz, cv7, swapIdx]),
    isoPmax_const cv7 _ 5 0 0 (by norm_num [isoK, isoSz, cv7, swapIdx])
      (by norm_num [isoM, isoSz, cv7, swapIdx])]
  rfl

/-- C7 amended: when masking is enabled, the preconditions hold and every
column has zero detected crossings, isoslice raises the Warning as an
exception carrying the requested isovalue and the observed min and max of the
property field; the call fails and no (masked) result is returned. -/
theorem isoslice_all_masked_raises (var prop : NDArray ℚ) (isoval : ℚ) (axis : ℕ)
    (h1 : 2 < (squeezeShape var.shape).length)
    (h2 : prop.shape = var.shape)
    (h3 : axis < var.shape.length)
    (hall : isoAllMasked var prop isoval axis = true) :
    isoslice var prop isoval axis true =
      .error (IsoErr.outOfRange isoval (isoPmin var prop isoval axis)
        (isoPmax var prop isoval axis)) := by
  unfold isoslice
  rw [if_neg (by omega), if_neg (by simp [h2]), if_neg (by simp [h3]),
    if_pos (by rw [hall]; rfl)]

def cv7w : NDArray ℚ := ⟨[4, 2, 2], fun idx => (idx.headD 0 : ℚ)⟩

theorem isoslice_all_masked_raises_witness :
    isoslice cv7w (constArr [4, 2, 2] 7) 1 0 true =
      .error (IsoErr.outOfRange 1 (isoPmin cv7w (constArr [4, 2, 2] 7) 1 0)
        (isoPmax cv7w (constArr [4, 2, 2] 7) 1 0)) :=
  isoslice_all_masked_raises cv7w (constArr [4, 2, 2] 7) 1 0
    (by norm_num [squeezeShape, cv7w])
    rfl
    (by norm_num [cv7w])
    (isoAllMasked_const cv7w [4, 2, 2] 7 1 0)

/- ------------------------------------------------------------------ -/
/- scoordr / scoordw / zatr (roms_tools.py lines 28-136).              -/
/- ------------------------------------------------------------------ -/

/-- Re-insertion of the singleton coordinates removed by squeeze, to read a
squeezed array from the original data. -/
def unsqueezeIdx : List ℕ → List ℕ → List ℕ
  | [], _ => []
  | d :: ds, idx =>
    if d = 1 then 0 :: unsqueezeIdx ds idx
    else idx.headD 0 :: unsqueezeIdx ds idx.tail

/-- numpy squeeze: all singleton dimensions removed. -/
def squeeze {α : Type} (a : NDArray α) : NDArray α :=
  ⟨squeezeShape a.shape, fun idx => a.data (unsqueezeIdx a.shape idx)⟩

/-- Sample k of sc_w = arange(-1, 1./N, 1./N): the value -1 + k/N.  The
arange produces ceil((1/N - (-1))/(1/N)) = N+1 samples, k = 0..N. -/
noncomputable def sc_wF (N k : ℕ) : ℝ := -1 + (k : ℝ) / (N : ℝ)

/-- sc_r = 0.5*(sc_w[1:] + sc_w[:-1]): midpoints of consecutive sc_w. -/
noncomputable def sc_rF (N k : ℕ) : ℝ := 0.5 * (sc_wF N (k + 1) + sc_wF N k)

/-- The stretching curve (1-theta_b)*sinh(theta_s*x)/sinh(theta_s)
+ 0.5*theta_b*(tanh(theta_s*(x+0.5)) - tanh(0.5*theta_s))/tanh(0.5*theta_s),
shared by scoordr (x = sc_r) and scoordw (x = sc_w). -/
noncomputable def CsCurve (theta_b theta_s x : ℝ) : ℝ :=
  (1 - theta_b) * Real.sinh (theta_s * x) / Real.sinh theta_s
    + 0.5 * theta_b * (Real.tanh (theta_s * (x + 0.5)) - Real.tanh (0.5 * theta_s))
      / Real.tanh (0.5 * theta_s)

/-- The z_r array of scoordr before the final squeeze:
z_r = empty((N,) + h.shape); z_r[k,:] = (sc_r[k]-Cs_r[k])*hc + Cs_r[k]*h. -/
noncomputable def scoordrZ (h : NDArray ℝ) (hc theta_b theta_s : ℝ) (N : ℕ) : NDArray ℝ :=
  ⟨N :: h.shape, fun idx =>
    match idx with
    | k :: rest =>
        (sc_rF N k - CsCurve theta_b theta_s (sc_rF N k)) * hc
          + CsCurve theta_b theta_s (sc_rF N k) * h.data rest
    | [] => 0⟩

noncomputable def scoordr (h : NDArray ℝ) (hc theta_b theta_s : ℝ) (N : ℕ) : NDArray ℝ :=
  squeeze (scoordrZ h hc theta_b theta_s N)

/-- The z_w array of scoordw before the final squeeze:
z_w = empty((N,) + h.shape); z_w[k,:] = (sc_w[k]-Cs_w[k])*hc + Cs_w[k]*h for
k in range(N) -- N levels, where N is scoordw's own parameter. -/
noncomputable def scoordwZ (h : NDArray ℝ) (hc theta_b theta_s : ℝ) (N : ℕ) : NDArray ℝ :=
  ⟨N :: h.shape, fun idx =>
    match idx with
    | k :: rest =>
        (sc_wF N k - CsCurve theta_b theta_s (sc_wF N k)) * hc
          + CsCurve theta_b theta_s (sc_wF N k) * h.data rest
    | [] => 0⟩

noncomputable def scoordw (h : NDArray ℝ) (hc theta_b theta_s : ℝ) (N : ℕ) : NDArray ℝ :=
  squeeze (scoordwZ h hc theta_b theta_s N)

/-- numpy atleast_2d. -/
def atleast2d {α : Type} (a : NDArray α) : NDArray α :=
  match a.shape with
  | [] => ⟨[1, 1], fun _ => a.data []⟩
  | [m] => ⟨[1, m], fun idx => a.data [idx.getD 1 0]⟩
  | _ => a

/-- The fields zatr reads from its dataset: h, hc, Cs_r, sc_r (or s_rho, the
two schema versions carry the same values), the vertical dimension length N,
and the zeta record at a time index.  Opening the dataset is the external
collaborator's job. -/
structure ROMSFile where
  h : NDArray ℝ
  hc : ℝ
  Cs_r : ℕ → ℝ
  sc_r : ℕ → ℝ
  N : ℕ
  zeta : ℕ → NDArray ℝ

/-- zeta = zeta[newaxis, :] when ndim(zeta) == 2. -/
noncomputable def zatrRecord (z0 : NDArray ℝ) : NDArray ℝ :=
  if z0.shape.length = 2 then ⟨1 :: z0.shape, fun idx => z0.data idx.tail⟩ else z0

/-- zeta as zatr prepares it: zeros(h.shape) (h already atleast_2d) when time
is None, otherwise the requested record; a leading record axis is added when
the field is 2-D. -/
noncomputable def zatrZeta (d : ROMSFile) (time : Option ℕ) : NDArray ℝ :=
  match time with
  | none => zatrRecord ⟨(atleast2d d.h).shape, fun _ => 0⟩
  | some t => zatrRecord (d.zeta t)

/-- The z array of zatr before the final squeeze: shape (ti, N) + h.shape,
z[n,k,:] = z0 + zeta[n,:]*(1.0 + z0/h) with
z0 = (sc_r[k]-Cs_r[k])*hc + Cs_r[k]*h. -/
noncomputable def zatrZ (d : ROMSFile) (time : Option ℕ) : NDArray ℝ :=
  ⟨(zatrZeta d time).shape.headD 0 :: d.N :: (atleast2d d.h).shape, fun idx =>
    match idx with
    | n :: k :: rest =>
        (d.sc_r k - d.Cs_r k) * d.hc + d.Cs_r k * (atleast2d d.h).data rest
          + (zatrZeta d time).data (n :: rest) *
            (1 + ((d.sc_r k - d.Cs_r k) * d.hc + d.Cs_r k * (atleast2d d.h).data rest)
              / (atleast2d d.h).data rest)
    | _ => 0⟩

noncomputable def zatr (d : ROMSFile) (time : Option ℕ) : NDArray ℝ :=
  squeeze (zatrZ d time)

/-- The parameter-only depth formula of claim C8: z0[k] = (sc_r[k]-Cs_r[k])*hc
+ Cs_r[k]*h with no free-surface term, laid out over the same record and
level axes as zatr's output. -/
noncomputable def zatrParamOnly (d : ROMSFile) : NDArray ℝ :=
  ⟨(zatrZeta d none).shape.headD 0 :: d.N :: (atleast2d d.h).shape, fun idx =>
    match idx with
    | _ :: k :: rest =>
        (d.sc_r k - d.Cs_r k) * d.hc + d.Cs_r k * (atleast2d d.h).data rest
    | _ => 0⟩

/- ------------------------------------------------------------------ -/
/- Claims C3 and C8.                                                   -/
/- ------------------------------------------------------------------ -/

noncomputable def c3h : NDArray ℝ := ⟨[2, 2], fun _ => 100⟩

/-- C3 counterexample: scoordw allocates z_w = empty((N,) + h.shape) and
fills only N levels (the loop runs k in range(N)), so with N = 3 and h of
shape (2, 2) the array before squeezing has shape (3, 2, 2), not
(N+1, *h.shape) = (4, 2, 2) as the claim states. -/
theorem scoordw_shape_counterexample :
    (scoordwZ c3h 5 0 1 3).shape = [3, 2, 2]
    ∧ ¬ (scoordwZ c3h 5 0 1 3).shape = (3 + 1) :: c3h.shape := by
  refine ⟨rfl, fun hcontra => ?_⟩
  have h34 : ([3, 2, 2] : List ℕ) = [4, 2, 2] := hcontra
  simp at h34

/-- C3 amended: for N >= 1 and theta_s /= 0, the z_w array of scoordw (before
squeezing) has leading axis length N -- the parameter itself, documented in
the source as the number of w-points -- i.e. shape (N, *h.shape); each level
k < N is z_w[k] = (sc_w[k]-Cs_w[k])*hc + Cs_w[k]*h; the function returns its
squeeze; and the arange does produce N+1 sc_w samples (its length is the
ceiling of (1/N - (-1))/(1/N) = N+1), of which only the first N are used. -/
theorem scoordw_levels (h : NDArray ℝ) (hc tb ts : ℝ) (N k : ℕ) (idx : List ℕ)
    (hN : 1 ≤ N) (hts : ts ≠ 0) (hk : k < N) (hidx : InB h.shape idx) :
    (scoordwZ h hc tb ts N).shape = N :: h.shape
    ∧ (scoordwZ h hc tb ts N).data (k :: idx) =
        (sc_wF N k - CsCurve tb ts (sc_wF N k)) * hc
          + CsCurve tb ts (sc_wF N k) * h.data idx
    ∧ scoordw h hc tb ts N = squeeze (scoordwZ h hc tb ts N)
    ∧ ((1 : ℝ) / N - (-1)) / ((1 : ℝ) / N) = N + 1 := by
  refine ⟨rfl, rfl, rfl, ?_⟩
  have hN0 : (N : ℝ) ≠ 0 := Nat.cast_ne_zero.mpr (by omega)
  field_simp
  ring

theorem scoordw_levels_witness :
    (scoordwZ c3h 5 0 1 3).shape = 3 :: c3h.shape
    ∧ (scoordwZ c3h 5 0 1 3).data (0 :: [0, 0]) =
        (sc_wF 3 0 - CsCurve 0 1 (sc_wF 3 0)) * 5
          + CsCurve 0 1 (sc_wF 3 0) * c3h.data [0, 0]
    ∧ scoordw c3h 5 0 1 3 = squeeze (scoordwZ c3h 5 0 1 3)
    ∧ ((1 : ℝ) / 3 - (-1)) / ((1 : ℝ) / 3) = 3 + 1 := by
  have := scoordw_levels c3h 5 0 1 3 0 [0, 0]
    (by norm_num) one_ne_zero (by norm_num) (by decide)
  exact_mod_cast this

/-- C8: when the dataset's sc_r and Cs_r values are the parameter-derived
ones (the midpoint samples and the stretching curve for some theta_b,
theta_s) and h is nonzero at every in-bounds point, zatr with time = None
(zeta identically zero) equals the parameter-only formula with no surface
term: the correction zeta*(1 + z0/h) vanishes, the pre-squeeze arrays agree
exactly, the returned array is the squeeze of the parameter-only one, and the
parameter-only values coincide with scoordr's z_r levels. -/
theorem zatr_zero_zeta_param_only (d : ROMSFile) (tb ts : ℝ)
    (hsc : ∀ k, d.sc_r k = sc_rF d.N k)
    (hCs : ∀ k, d.Cs_r k = CsCurve tb ts (sc_rF d.N k))
    (hh : ∀ idx, InB (atleast2d d.h).shape idx → (atleast2d d.h).data idx ≠ 0) :
    zatrZ d none = zatrParamOnly d
    ∧ zatr d none = squeeze (zatrParamOnly d)
    ∧ ∀ k, k < d.N → ∀ rest,
        (zatrParamOnly d).data (0 :: k :: rest) =
          (scoordrZ (atleast2d d.h) d.hc tb ts d.N).data (k :: rest) := by
  have hzero : ∀ idx2, (zatrZeta d none).data idx2 = 0 := by
    intro idx2
    show (zatrRecord ⟨(atleast2d d.h).shape, fun _ => 0⟩).data idx2 = 0
    unfold zatrRecord
    split <;> rfl
  have hdata : zatrZ d none = zatrParamOnly d := by
    unfold zatrZ zatrParamOnly
    congr 1
    funext idx
    cases idx with
    | nil => rfl
    | cons n rest1 =>
      cases rest1 with
      | nil => rfl
      | cons k rest =>
        show _ + (zatrZeta d none).data (n :: rest) * _ = _
        rw [hzero (n :: rest), zero_mul, add_zero]
  refine ⟨hdata, by unfold zatr; rw [hdata], ?_⟩
  intro k _ rest
  have hL : (zatrParamOnly d).data (0 :: k :: rest) =
      (d.sc_r k - d.Cs_r k) * d.hc + d.Cs_r k * (atleast2d d.h).data rest := rfl
  have hR : (scoordrZ (atleast2d d.h) d.hc tb ts d.N).data (k :: rest) =
      (sc_rF d.N k - CsCurve tb ts (sc_rF d.N k)) * d.hc
        + CsCurve tb ts (sc_rF d.N k) * (atleast2d d.h).data rest := rfl
  rw [hL, hR, hsc k, hCs k]

noncomputable def c8file : ROMSFile :=
  ⟨⟨[2, 2], fun _ => 50⟩, 5, fun k => CsCurve (1/4) 2 (sc_rF 4 k), fun k => sc_rF 4 k, 4,
    fun _ => ⟨[2, 2], fun _ => 0⟩⟩

theorem zatr_zero_zeta_param_only_witness :
    zatrZ c8file none = zatrParamOnly c8file
    ∧ zatr c8file none = squeeze (zatrParamOnly c8file)
    ∧ ∀ k, k < c8file.N → ∀ rest,
        (zatrParamOnly c8file).data (0 :: k :: rest) =
          (scoordrZ (atleast2d c8file.h) c8file.hc (1/4) 2 c8file.N).data (k :: rest) :=
  zatr_zero_zeta_param_only c8file (1/4) 2 (fun _ => rfl) (fun _ => rfl)
    (fun idx _ => by norm_num [c8file, atleast2d])

/- ------------------------------------------------------------------ -/
/- arg_nearest (roms_tools.py lines 268-284).                          -/
/- ------------------------------------------------------------------ -/

inductive ArgErr
  | countMismatch
  | rankMismatch
  | scaleMismatch
  | emptyReduce
deriving DecidableEq

/-- The [(y-yo)**2 for (y, yo) in zip(x, xo)] terms. -/
def sqTerms (x : List (NDArray ℚ)) (xo : List ℚ) : List (NDArray ℚ) :=
  List.zipWith (fun p v => ⟨p.shape, fun idx => (p.data idx - v) ^ 2⟩) x xo

/-- reduce(add, terms): elementwise sums folded from the left; Python's
reduce fails on an empty sequence.  The elementwise add is for arrays of one
common shape (the source relies on numpy broadcasting; the claims quantify
over same-shape coordinate arrays). -/
def reduceAdd : List (NDArray ℚ) → Option (NDArray ℚ)
  | [] => none
  | t :: ts =>
    some (ts.foldl (fun acc u => ⟨acc.shape, fun idx => acc.data idx + u.data idx⟩) t)

/-- [p*q for (p, q) in zip(x, scale)]. -/
def scaleArrs (x : List (NDArray ℚ)) (s : List ℚ) : List (NDArray ℚ) :=
  List.zipWith (fun p q => ⟨p.shape, fun idx => p.data idx * q⟩) x s

/-- q.min() over the whole array, in C order; numpy fails on an empty
array. -/
def arrMin (a : NDArray ℚ) : Option ℚ :=
  match (allIdx a.shape).map a.data with
  | [] => none
  | v :: vs => some (vs.foldl min v)

/-- where(q == q.min()): all in-bounds indices attaining the minimum, in C
order. -/
def argWhereMin (q : NDArray ℚ) : Option (List (List ℕ)) :=
  match arrMin q with
  | none => none
  | some m => some ((allIdx q.shape).filter fun idx => decide (q.data idx = m))

def argKernel (x : List (NDArray ℚ)) (xo : List ℚ) : Except ArgErr (List (List ℕ)) :=
  match reduceAdd (sqTerms x xo) with
  | none => Except.error ArgErr.emptyReduce
  | some q =>
    match argWhereMin q with
    | none => Except.error ArgErr.emptyReduce
    | some res => Except.ok res

/-- Python's `if scale:` test: false for None and for an empty list. -/
def scaleTruthy : Option (List ℚ) → Bool
  | none => false
  | some s => !s.isEmpty

/-- arg_nearest(x, xo, scale): asserts len(x) == len(xo) and that every
array's rank equals len(xo); a truthy scale (not None, not empty -- Python's
`if scale:`) must have len(x) entries and multiplies both the arrays and the
target; the squared-distance field is then reduced and every argmin index
returned. -/
def arg_nearest (x : List (NDArray ℚ)) (xo : List ℚ) (scale : Option (List ℚ)) :
    Except ArgErr (List (List ℕ)) :=
  if ¬ x.length = xo.length then Except.error ArgErr.countMismatch
  else if ¬ ∀ p ∈ x, p.shape.length = xo.length then Except.error ArgErr.rankMismatch
  else if scaleTruthy scale then
    if ¬ x.length = (scale.getD []).length then Except.error ArgErr.scaleMismatch
    else argKernel (scaleArrs x (scale.getD []))
      (List.zipWith (fun p q => p * q) xo (scale.getD []))
  else argKernel x xo

/-- The squared Euclidean distance of the claim at an index: the sum over
coordinate pairs of (x_i - xo_i)^2. -/
def specDist (x : List (NDArray ℚ)) (xo : List ℚ) (idx : List ℕ) : ℚ :=
  (List.zipWith (fun p v => (p.data idx - v) ^ 2) x xo).sum

/-- The effectively used coordinate arrays and target: scaled when scale is
truthy, as given otherwise. -/
def effArrays (x : List (NDArray ℚ)) (xo : List ℚ) (scale : Option (List ℚ)) :
    List (NDArray ℚ) × List ℚ :=
  if scaleTruthy scale then
    (scaleArrs x (scale.getD []), List.zipWith (fun p q => p * q) xo (scale.getD []))
  else (x, xo)

theorem foldl_addArr (ts : List (NDArray ℚ)) :
    ∀ t : NDArray ℚ,
      (ts.foldl (fun acc u => ⟨acc.shape, fun idx => acc.data idx + u.data idx⟩) t).shape
          = t.shape
      ∧ ∀ idx,
          (ts.foldl (fun acc u => ⟨acc.shape, fun idx => acc.data idx + u.data idx⟩) t).data idx
            = t.data idx + (ts.map (fun u => u.data idx)).sum := by
  induction ts with
  | nil => intro t; exact ⟨rfl, fun idx => by simp⟩
  | cons u us ih =>
    intro t
    refine ⟨(ih _).1, fun idx => ?_⟩
    rw [List.foldl_cons, (ih _).2 idx]
    show t.data idx + u.data idx + _ = _
    simp [add_assoc]

theorem foldl_min_le (l : List ℚ) :
    ∀ a : ℚ, l.foldl min a ≤ a ∧ ∀ x ∈ l, l.foldl min a ≤ x := by
  induction l with
  | nil => intro a; exact ⟨le_refl a, by simp⟩
  | cons x xs ih =>
    intro a
    constructor
    · exact le_trans ((ih (min a x)).1) (min_le_left a x)
    · intro y hy
      rcases List.mem_cons.mp hy with rfl | hy2
      · exact le_trans ((ih (min a y)).1) (min_le_right a y)
      · exact (ih (min a x)).2 y hy2

theorem foldl_min_mem (l : List ℚ) :
    ∀ a : ℚ, l.foldl min a = a ∨ l.foldl min a ∈ l := by
  induction l with
  | nil => intro a; exact Or.inl rfl
  | cons x xs ih =>
    intro a
    rcases ih (min a x) with h | h
    · rcases min_cases a x with ⟨hmin, _⟩ | ⟨hmin, _⟩
      · exact Or.inl (by rw [List.foldl_cons, h, hmin])
      · exact Or.inr (by rw [List.foldl_cons, h, hmin]; simp)
    · exact Or.inr (by simp [h])

theorem InB_cons (d : ℕ) (ds : List ℕ) (idx : List ℕ) :
    InB (d :: ds) idx ↔ ∃ i rest, idx = i :: rest ∧ i < d ∧ InB ds rest := by
  constructor
  · rintro ⟨hlen, hcoord⟩
    cases idx with
    | nil => simp at hlen
    | cons i rest =>
      refine ⟨i, rest, rfl, ?_, ?_, ?_⟩
      · simpa using hcoord 0 (by simp)
      · simpa using hlen
      · intro n hn
        simp only [List.mem_range] at hn
        simpa using hcoord (n + 1) (by simp only [List.mem_range, List.length_cons]; omega)
  · rintro ⟨i, rest, rfl, hi, hlen, hcoord⟩
    refine ⟨by simpa using hlen, ?_⟩
    intro n hn
    simp only [List.mem_range, List.length_cons] at hn
    cases n with
    | zero => simpa using hi
    | succ m =>
      simpa using hcoord m (by simp only [List.mem_range]; omega)

theorem mem_allIdx (s : List ℕ) : ∀ idx, idx ∈ allIdx s ↔ InB s idx := by
  induction s with
  | nil =>
    intro idx
    show idx ∈ [[]] ↔ InB [] idx
    simp only [List.mem_singleton]
    constructor
    · rintro rfl; exact ⟨rfl, by simp⟩
    · rintro ⟨hlen, _⟩; exact List.eq_nil_of_length_eq_zero hlen
  | cons d ds ih =>
    intro idx
    simp only [allIdx, List.mem_flatMap, List.mem_map, List.mem_range]
    rw [InB_cons]
    constructor
    · rintro ⟨i, hi, rest, hrest, rfl⟩
      exact ⟨i, rest, rfl, hi, (ih rest).mp hrest⟩
    · rintro ⟨i, rest, rfl, hi, hrest⟩
      exact ⟨i, hi, rest, (ih rest).mpr hrest, rfl⟩

theorem argKernel_spec (x : List (NDArray ℚ)) (xo : List ℚ) (sh : List ℕ)
    (hxne : x ≠ [])
    (hlen : x.length = xo.length)
    (hsh : ∀ p ∈ x, p.shape = sh)
    (hne : allIdx sh ≠ []) :
    ∃ res, argKernel x xo = Except.ok res ∧
      ∀ idx, idx ∈ res ↔ (InB sh idx ∧ ∀ idx2, InB sh idx2 →
        specDist x xo idx ≤ specDist x xo idx2) := by
  obtain ⟨p, ps, rfl⟩ : ∃ p ps, x = p :: ps := by
    cases x with
    | nil => exact absurd rfl hxne
    | cons p ps => exact ⟨p, ps, rfl⟩
  obtain ⟨v, vs, rfl⟩ : ∃ v vs, xo = v :: vs := by
    cases xo with
    | nil => simp at hlen
    | cons v vs => exact ⟨v, vs, rfl⟩
  have hpsh : p.shape = sh := hsh p (by simp)
  obtain ⟨q, hred, hqsh2, hdata⟩ :
      ∃ q : NDArray ℚ, reduceAdd (sqTerms (p :: ps) (v :: vs)) = some q
        ∧ q.shape = p.shape
        ∧ ∀ idx, q.data idx = specDist (p :: ps) (v :: vs) idx := by
    have hexp : reduceAdd (sqTerms (p :: ps) (v :: vs)) =
        some ((sqTerms ps vs).foldl
          (fun acc u => (⟨acc.shape, fun idx => acc.data idx + u.data idx⟩ : NDArray ℚ))
          ⟨p.shape, fun idx => (p.data idx - v) ^ 2⟩) := rfl
    refine ⟨_, hexp, ?_, ?_⟩
    · exact (foldl_addArr (sqTerms ps vs) ⟨p.shape, fun idx => (p.data idx - v) ^ 2⟩).1
    · intro idx
      rw [(foldl_addArr (sqTerms ps vs) ⟨p.shape, fun idx => (p.data idx - v) ^ 2⟩).2 idx]
      show (p.data idx - v) ^ 2 + _ = _
      unfold specDist
      rw [List.zipWith_cons_cons, List.sum_cons]
      congr 1
      rw [sqTerms, List.map_zipWith]
  have hqsh : q.shape = sh := by rw [hqsh2, hpsh]
  obtain ⟨v0, vs0, hvals⟩ : ∃ v0 vs0, (allIdx q.shape).map q.data = v0 :: vs0 := by
    rw [hqsh]
    cases hAll : (allIdx sh).map q.data with
    | nil =>
      exfalso
      apply hne
      have := congrArg List.length hAll
      simp only [List.length_map] at this
      exact List.eq_nil_of_length_eq_zero this
    | cons v0 vs0 => exact ⟨v0, vs0, rfl⟩
  have hmin : arrMin q = some (vs0.foldl min v0) := by
    unfold arrMin
    rw [hvals]
  set m := vs0.foldl min v0 with hm
  have hmle : ∀ w ∈ (allIdx q.shape).map q.data, m ≤ w := by
    intro w hw
    rw [hvals] at hw
    rcases List.mem_cons.mp hw with rfl | hw2
    · exact (foldl_min_le vs0 w).1
    · exact (foldl_min_le vs0 v0).2 w hw2
  have hmmem : m ∈ (allIdx q.shape).map q.data := by
    rw [hvals]
    rcases foldl_min_mem vs0 v0 with h | h
    · simp [hm, h]
    · simp [hm]
      right
      exact h
  refine ⟨(allIdx q.shape).filter fun idx => decide (q.data idx = m), ?_, ?_⟩
  · have hwhere : argWhereMin q =
        some ((allIdx q.shape).filter fun idx => decide (q.data idx = m)) := by
      unfold argWhereMin
      rw [hmin]
    unfold argKernel
    rw [hred]
    show (match argWhereMin q with
      | none => Except.error ArgErr.emptyReduce
      | some res => Except.ok res) = _
    rw [hwhere]
  · intro idx
    rw [List.mem_filter]
    constructor
    · rintro ⟨hmem, hval⟩
      rw [hqsh] at hmem
      have hqidx : q.data idx = m := by simpa using hval
      refine ⟨(mem_allIdx sh idx).mp hmem, ?_⟩
      intro idx2 hidx2
      have h2mem : q.data idx2 ∈ (allIdx q.shape).map q.data := by
        rw [hqsh]
        exact List.mem_map_of_mem q.data ((mem_allIdx sh idx2).mpr hidx2)
      have := hmle (q.data idx2) h2mem
      rw [← hdata idx, ← hdata idx2, hqidx]
      exact this
    · rintro ⟨hInB, hminval⟩
      have hmem : idx ∈ allIdx q.shape := by
        rw [hqsh]
        exact (mem_allIdx sh idx).mpr hInB
      refine ⟨hmem, ?_⟩
      obtain ⟨idxm, hidxm_mem, hidxm⟩ := List.exists_of_mem_map hmmem
      have hle1 : q.data idx ≤ m := by
        rw [← hidxm]
        have hInBm : InB sh idxm := (mem_allIdx sh idxm).mp (by rwa [hqsh] at hidxm_mem)
        rw [hdata idx, hdata idxm]
        exact hminval idxm hInBm
      have hle2 : m ≤ q.data idx := hmle (q.data idx) (List.mem_map_of_mem q.data hmem)
      simp [le_antisymm hle1 hle2]

theorem scaleArrs_shape (x : List (NDArray ℚ)) (s : List ℚ) (sh : List ℕ)
    (hsh : ∀ p ∈ x, p.shape = sh) : ∀ p ∈ scaleArrs x s, p.shape = sh := by
  induction x generalizing s with
  | nil => intro p hp; simp [scaleArrs] at hp
  | cons a as ih =>
    intro p hp
    cases s with
    | nil => simp [scaleArrs] at hp
    | cons b bs =>
      rcases List.mem_cons.mp hp with rfl | hp2
      · exact hsh a (by simp)
      · exact ih bs (fun p2 hp3 => hsh p2 (by simp [hp3])) p hp2

/-- C9: with matching list lengths, ranks, and an optional matching-length
scale, arg_nearest succeeds on same-shape nonempty coordinate arrays and
returns exactly the set of in-bounds indices minimising the (optionally
scaled) squared Euclidean distance -- every tied minimum is included. -/
theorem arg_nearest_all_ties (x : List (NDArray ℚ)) (xo : List ℚ) (scale : Option (List ℚ))
    (sh : List ℕ)
    (hxne : x ≠ [])
    (hlen : x.length = xo.length)
    (hrank : ∀ p ∈ x, p.shape.length = xo.length)
    (hsh : ∀ p ∈ x, p.shape = sh)
    (hscale : scale = none ∨ ∃ s, scale = some s ∧ s.length = x.length)
    (hne : allIdx sh ≠ []) :
    ∃ res, arg_nearest x xo scale = Except.ok res ∧
      ∀ idx, idx ∈ res ↔ (InB sh idx ∧ ∀ idx2, InB sh idx2 →
        specDist (effArrays x xo scale).1 (effArrays x xo scale).2 idx ≤
          specDist (effArrays x xo scale).1 (effArrays x xo scale).2 idx2) := by
  unfold arg_nearest
  rw [if_neg (by simp [hlen]), if_neg (by simp; exact hrank)]
  rcases hscale with rfl | ⟨s, rfl, hslen⟩
  · rw [if_neg (by simp [scaleTruthy])]
    have heff : effArrays x xo none = (x, xo) := by
      unfold effArrays
      rw [if_neg (by simp [scaleTruthy])]
    rw [heff]
    exact argKernel_spec x xo sh hxne hlen hsh hne
  · by_cases hempty : s.isEmpty
    · rw [if_neg (by simp [scaleTruthy, hempty])]
      have heff : effArrays x xo (some s) = (x, xo) := by
        unfold effArrays
        rw [if_neg (by simp [scaleTruthy, hempty])]
      rw [heff]
      exact argKernel_spec x xo sh hxne hlen hsh hne
    · rw [if_pos (by simp [scaleTruthy]; simpa using hempty),
        show ((some s).getD []) = s from rfl,
        if_neg (by simp [hslen])]
      have heff : effArrays x xo (some s) =
          (scaleArrs x s, List.zipWith (fun p q => p * q) xo s) := by
        unfold effArrays
        rw [if_pos (by simp [scaleTruthy]; simpa using hempty),
          show ((some s).getD []) = s from rfl]
      rw [heff]
      apply argKernel_spec _ _ sh
      · obtain ⟨p, ps, rfl⟩ : ∃ p ps, x = p :: ps := by
          cases x with
          | nil => exact absurd rfl hxne
          | cons p ps => exact ⟨p, ps, rfl⟩
        obtain ⟨b, bs, rfl⟩ : ∃ b bs, s = b :: bs := by
          cases s with
          | nil => simp at hempty
          | cons b bs => exact ⟨b, bs, rfl⟩
        simp [scaleArrs]
      · simp only [scaleArrs, List.length_zipWith]
        omega
      · exact scaleArrs_shape x s sh hsh
      · exact hne

def c9arr : NDArray ℚ := arr1D [0, 1, 2, 3]

theorem arg_nearest_all_ties_witness :
    ∃ res, arg_nearest [c9arr] [3/2] none = Except.ok res ∧ [1] ∈ res ∧ [2] ∈ res := by
  obtain ⟨res, hok, hchar⟩ := arg_nearest_all_ties [c9arr] [3/2] none [4]
    (by simp)
    rfl
    (by intro p hp; rw [List.mem_singleton] at hp; subst hp; rfl)
    (by intro p hp; rw [List.mem_singleton] at hp; subst hp; rfl)
    (Or.inl rfl)
    (by decide)
  have heff : effArrays [c9arr] [3/2] none = ([c9arr], [3/2]) := rfl
  rw [heff] at hchar
  have hval1 : ∀ i : ℕ, i < 4 →
      specDist [c9arr] [3/2] [1] ≤ specDist [c9arr] [3/2] [i] := by
    intro i hi
    interval_cases i <;> norm_num [specDist, arr1D, c9arr]
  have hval2 : ∀ i : ℕ, i < 4 →
      specDist [c9arr] [3/2] [2] ≤ specDist [c9arr] [3/2] [i] := by
    intro i hi
    interval_cases i <;> norm_num [specDist, arr1D, c9arr]
  have hgen : ∀ j : ℕ, (∀ i : ℕ, i < 4 →
      specDist [c9arr] [3/2] [j] ≤ specDist [c9arr] [3/2] [i]) →
      ∀ idx2, InB [4] idx2 →
        specDist [c9arr] [3/2] [j] ≤ specDist [c9arr] [3/2] idx2 := by
    intro j hj idx2 hidx2
    obtain ⟨hl2, hc2⟩ := hidx2
    cases idx2 with
    | nil => simp at hl2
    | cons i rest =>
      cases rest with
      | nil =>
        have hi : i < 4 := by simpa using hc2 0 (by simp)
        exact hj i hi
      | cons z zs => simp at hl2
  exact ⟨res, hok,
    (hchar [1]).mpr ⟨by decide, hgen 1 hval1⟩,
    (hchar [2]).mpr ⟨by decide, hgen 2 hval2⟩⟩

/- ------------------------------------------------------------------ -/
/- Dataset.py: the Dataset and MFDataset dispatchers (claim C10).      -/
/- ------------------------------------------------------------------ -/

/-- The inputs the dataset dispatchers distinguish: a file-name string, a
list or tuple of file names, an already-open object exposing a variables
dictionary, or anything else (TypeError). -/
inductive NCInput
  | strPath (s : String)
  | fileList (l : List String)
  | fileTuple (l : List String)
  | openHandle (vars : List (String × String))
  | unsupported

/-- The object handed back: a single-file dataset, a multi-file dataset over
explicitly listed files (opened by the external MFnetCDF4 backend), a
multi-file dataset over a wildcard pattern, or the input passed through. -/
inductive NCObject
  | single (path : String)
  | multiFile (files : List String)
  | multiPattern (pattern : String)
  | passthrough (vars : List (String × String))
deriving DecidableEq

/-- sorted(ncfile): Python's stable ascending sort of the file names,
modelled by a stable sort under the lexicographic order on strings. -/
def sortFiles (l : List String) : List String := List.insertionSort (· ≤ ·) l

/-- Dataset(ncfile) (Dataset.py lines 25-40): netCDF4.Dataset for a string,
MFnetCDF4.Dataset(sorted(ncfile)) for a list or tuple, pass-through for an
object with a variables dictionary, TypeError otherwise. -/
def Dataset : NCInput → Except String NCObject
  | NCInput.strPath s => Except.ok (NCObject.single s)
  | NCInput.fileList l => Except.ok (NCObject.multiFile (sortFiles l))
  | NCInput.fileTuple l => Except.ok (NCObject.multiFile (sortFiles l))
  | NCInput.openHandle v => Except.ok (NCObject.passthrough v)
  | NCInput.unsupported => Except.error "type not supported"

/-- MFDataset(ncfile) (Dataset.py lines 44-57): a string is opened as a
wildcard pattern by the external backend, a list or tuple is sorted first,
an open object passes through, anything else is a TypeError. -/
def MFDataset : NCInput → Except String NCObject
  | NCInput.strPath s => Except.ok (NCObject.multiPattern s)
  | NCInput.fileList l => Except.ok (NCObject.multiFile (sortFiles l))
  | NCInput.fileTuple l => Except.ok (NCObject.multiFile (sortFiles l))
  | NCInput.openHandle v => Except.ok (NCObject.passthrough v)
  | NCInput.unsupported => Except.error "type not supported"

theorem sortFiles_perm_eq (l1 l2 : List String) (h : l1.Perm l2) :
    sortFiles l1 = sortFiles l2 :=
  @List.eq_of_perm_of_sorted String (fun a b => a ≤ b) inferInstance _ _
    ((List.perm_insertionSort _ l1).trans (h.trans (List.perm_insertionSort _ l2).symm))
    (List.sorted_insertionSort _ l1)
    (List.sorted_insertionSort _ l2)

/-- C10: Dataset and MFDataset sort a list or tuple of file names before
opening it as a multi-file dataset, so two inputs that are permutations of
each other yield the same dataset: the caller-supplied ordering never
affects the result. -/
theorem dataset_order_invariant (l1 l2 : List String) (h : l1.Perm l2) :
    Dataset (NCInput.fileList l1) = Dataset (NCInput.fileList l2)
    ∧ Dataset (NCInput.fileTuple l1) = Dataset (NCInput.fileTuple l2)
    ∧ MFDataset (NCInput.fileList l1) = MFDataset (NCInput.fileList l2)
    ∧ MFDataset (NCInput.fileTuple l1) = MFDataset (NCInput.fileTuple l2) := by
  have hs := sortFiles_perm_eq l1 l2 h
  refine ⟨?_, ?_, ?_, ?_⟩ <;> simp [Dataset, MFDataset, hs]

theorem dataset_order_invariant_witness :
    Dataset (NCInput.fileList ["b.nc", "a.nc"]) = Dataset (NCInput.fileList ["a.nc", "b.nc"])
    ∧ Dataset (NCInput.fileTuple ["b.nc", "a.nc"]) = Dataset (NCInput.fileTuple ["a.nc", "b.nc"])
    ∧ MFDataset (NCInput.fileList ["b.nc", "a.nc"]) = MFDataset (NCInput.fileList ["a.nc", "b.nc"])
    ∧ MFDataset (NCInput.fileTuple ["b.nc", "a.nc"]) = MFDataset (NCInput.fileTuple ["a.nc", "b.nc"]) :=
  dataset_order_invariant ["b.nc", "a.nc"] ["a.nc", "b.nc"] (List.Perm.swap _ _ _)
